import Mathlib

/-!
Verification of the Count-Sketch-Optimizers repository: a shallow embedding of
the integer hash, the Count-Min sketch kernel (`optimizers/cms.py`), the dense
hash-compressed adaptive-update kernels (`optimizers/dense_exp_cms.py`) and the
Adam optimizer driver (`adam_error.py`), together with proofs of the behavioural
claims made in the specification.

Machine integers are modelled as `ℤ` with explicit two's-complement wraparound
at 32 bits; float arithmetic is idealised as `ℚ` where only ring operations
occur and as `ℝ` where square roots are taken.
-/

namespace CSO

/-! ## 32-bit integer primitives

The CUDA `hash` function works on C `int` values: arithmetic wraps modulo
`2^32` into the signed range `[-2^31, 2^31)`, `>>` is an arithmetic right
shift, `^` is bitwise xor on the two's-complement representation and `%` is
C's truncated remainder. -/

/-- Wrap an integer into the signed 32-bit range `[-2^31, 2^31)`. -/
def toInt32 (n : ℤ) : ℤ := (n + 2 ^ 31) % 2 ^ 32 - 2 ^ 31

/-- The two's-complement bit pattern of a 32-bit value, as a natural number. -/
def bits32 (n : ℤ) : ℕ := (n % 2 ^ 32).toNat

/-- C bitwise xor on `int`: xor of the two's-complement bit patterns. -/
def xor32 (x y : ℤ) : ℤ := toInt32 ((bits32 x ^^^ bits32 y : ℕ) : ℤ)

/-- C arithmetic right shift on `int` (rounds toward minus infinity). -/
def asr32 (x : ℤ) (k : ℕ) : ℤ := Int.fdiv x (2 ^ k)

/-- The device function `hash(value, range, a, b)` from `optimizers/cms.py`
and `optimizers/dense_exp_cms.py`:
`h = a*value + b`, three xor-shift/multiply avalanche rounds, then C's
(signed, truncated) `h % range`. -/
def hash (value range a b : ℤ) : ℤ :=
  let h0 := toInt32 (a * value + b)
  let h1 := xor32 h0 (asr32 h0 16)
  let h2 := toInt32 (h1 * 0x85ebca6b)
  let h3 := xor32 h2 (asr32 h2 13)
  let h4 := toInt32 (h3 * 0xc2b2ae35)
  let h5 := xor32 h4 (asr32 h4 16)
  Int.tmod h5 range

theorem toInt32_bounds (n : ℤ) : -2 ^ 31 ≤ toInt32 n ∧ toInt32 n < 2 ^ 31 := by
  unfold toInt32
  omega

theorem bits32_lt (x : ℤ) : bits32 x < 2 ^ 32 := by
  unfold bits32
  omega

/-- Bit 31 of the 32-bit pattern of an in-range value is its sign bit. -/
theorem bits32_testBit31 (x : ℤ) (h1 : -2 ^ 31 ≤ x) (h2 : x < 2 ^ 31) :
    (bits32 x).testBit 31 = decide (x < 0) := by
  rcases lt_or_le x 0 with hx | hx
  · have hb : 2 ^ 31 ≤ bits32 x := by unfold bits32; omega
    have hb' : bits32 x < 2 ^ 32 := bits32_lt x
    rw [Nat.testBit_to_div_mod]
    norm_num at hb hb'
    have hdiv : bits32 x / 2 ^ 31 % 2 = 1 := by norm_num; omega
    norm_num at hdiv
    simp [hdiv, hx]
  · have hb : bits32 x < 2 ^ 31 := by unfold bits32; omega
    rw [Nat.testBit_lt_two_pow hb]
    simp [not_lt.mpr hx]

/-- An arithmetic right shift by 16 keeps the sign and stays in range. -/
theorem asr32_16_facts (x : ℤ) (h1 : -2 ^ 31 ≤ x) (h2 : x < 2 ^ 31) :
    -2 ^ 31 ≤ asr32 x 16 ∧ asr32 x 16 < 2 ^ 31 ∧ (asr32 x 16 < 0 ↔ x < 0) := by
  have he : asr32 x 16 = x / 65536 := by
    unfold asr32
    rw [Int.fdiv_eq_ediv _ (by norm_num)]
    norm_num
  rw [he]
  omega

/-- The final avalanche step `h ^= h >> 16` xors the sign bit with itself,
so its result is always non-negative (and below `2^31`). -/
theorem finalXor_nonneg (x : ℤ) (h1 : -2 ^ 31 ≤ x) (h2 : x < 2 ^ 31) :
    0 ≤ xor32 x (asr32 x 16) ∧ xor32 x (asr32 x 16) < 2 ^ 31 := by
  obtain ⟨ha1, ha2, ha3⟩ := asr32_16_facts x h1 h2
  have hbit : (bits32 x).testBit 31 = (bits32 (asr32 x 16)).testBit 31 := by
    rw [bits32_testBit31 x h1 h2, bits32_testBit31 _ ha1 ha2]
    simp [ha3]
  have hxor : (bits32 x ^^^ bits32 (asr32 x 16) : ℕ) < 2 ^ 31 := by
    apply Nat.lt_pow_two_of_testBit
    intro i hi
    rcases eq_or_lt_of_le hi with rfl | hi'
    · rw [Nat.testBit_xor, hbit]
      simp
    · rw [Nat.testBit_xor]
      have l1 : (bits32 x).testBit i = false :=
        Nat.testBit_lt_two_pow (lt_of_lt_of_le (bits32_lt x)
          (Nat.pow_le_pow_right (by norm_num) (by omega)))
      have l2 : (bits32 (asr32 x 16)).testBit i = false :=
        Nat.testBit_lt_two_pow (lt_of_lt_of_le (bits32_lt _)
          (Nat.pow_le_pow_right (by norm_num) (by omega)))
      simp [l1, l2]
  have hn : ((bits32 x ^^^ bits32 (asr32 x 16) : ℕ) : ℤ) < 2 ^ 31 := by
    exact_mod_cast hxor
  unfold xor32 toInt32
  constructor
  · omega
  · omega

/-- The value fed into the final `% range` is always non-negative. -/
theorem hash_pre_mod_nonneg (value a b : ℤ) :
    ∃ h5 : ℤ, 0 ≤ h5 ∧ h5 < 2 ^ 31 ∧
      ∀ range : ℤ, hash value range a b = Int.tmod h5 range := by
  unfold hash
  refine ⟨_, ?_, ?_, fun _ => rfl⟩
  · exact (finalXor_nonneg _ (toInt32_bounds _).1 (toInt32_bounds _).2).1
  · exact (finalXor_nonneg _ (toInt32_bounds _).1 (toInt32_bounds _).2).2

/-- C4: for every key (however the signed intermediate values overflow) and
every positive range, `hash` returns a bucket index in `[0, range)`.  The
signed truncated `%` never produces a negative bucket because the final
`h ^= h >> 16` xors the sign bit of `h` with itself, leaving `h`
non-negative. -/
theorem hash_in_range (value range a b : ℤ) (hr : 0 < range) :
    0 ≤ hash value range a b ∧ hash value range a b < range := by
  obtain ⟨h5, hpos, _, heq⟩ := hash_pre_mod_nonneg value a b
  rw [heq range]
  exact ⟨Int.tmod_nonneg range hpos, Int.tmod_lt_of_pos h5 hr⟩

/-- Witness for C4 at a concrete key and range. -/
theorem hash_in_range_witness :
    (0 : ℤ) < 10 ∧ (0 ≤ hash 0 10 994443 609478 ∧ hash 0 10 994443 609478 < 10) :=
  ⟨by norm_num, hash_in_range 0 10 994443 609478 (by norm_num)⟩

/-! ## CountMinSketch (`optimizers/cms.py`)

The sketch memory is a flat float array; `cms_update_retrieve` touches, for
each of three rows `idx`, the cell `idx*W + hash(index, N, a[idx], b[idx])*D +
threadIdx.x`, adds `value` and reads the post-add cell, returning the minimum
of the three reads.  The memory is modelled as a total function `ℤ → ℚ` and a
batch of kernel launches as a list of `(key, lane, value)` triples processed
in sequence. -/

/-- Pointwise function update (one store into the flat array). -/
def updf {α : Type} (f : ℤ → α) (i : ℤ) (x : α) : ℤ → α :=
  fun j => if j = i then x else f j

/-- `mem[i] += v` followed by reading `mem[i]` reads the stored value. -/
def addAt (st : ℤ → ℚ) (i : ℤ) (v : ℚ) : ℤ → ℚ := updf st i (st i + v)

theorem addAt_apply (st : ℤ → ℚ) (i : ℤ) (v : ℚ) (j : ℤ) :
    addAt st i v j = st j + if j = i then v else 0 := by
  unfold addAt updf
  split_ifs with h
  · rw [h]
  · ring

/-- The row salts `a[3] = {994443, 4113759, 9171025}` from `cms.py`. -/
def cmsA : ℕ → ℤ
  | 0 => 994443
  | 1 => 4113759
  | _ => 9171025

/-- The row salts `b[3] = {609478, 2949676, 2171464}` from `cms.py`. -/
def cmsB : ℕ → ℤ
  | 0 => 609478
  | 1 => 2949676
  | _ => 2171464

/-- Flat index of row `r`'s cell for `(key, lane)`:
`idx*W + hash(index, N, a[idx], b[idx])*D + threadIdx.x`. -/
def flatIdx (N W D : ℤ) (r : ℕ) (key lane : ℤ) : ℤ :=
  (r : ℤ) * W + hash key N (cmsA r) (cmsB r) * D + lane

/-- `minimum(a, b, c) = fminf(fminf(a, b), c)`. -/
def minimum (a b c : ℚ) : ℚ := min (min a b) c

/-- `cms_update_retrieve`: add `value` into the three row cells in turn,
recording the post-add reads, and return the minimum of the three reads
together with the new memory. -/
def cmsUpdateRetrieve (N W D : ℤ) (st : ℤ → ℚ) (key lane : ℤ) (v : ℚ) :
    (ℤ → ℚ) × ℚ :=
  let i0 := flatIdx N W D 0 key lane
  let st0 := addAt st i0 v
  let r0 := st0 i0
  let i1 := flatIdx N W D 1 key lane
  let st1 := addAt st0 i1 v
  let r1 := st1 i1
  let i2 := flatIdx N W D 2 key lane
  let st2 := addAt st1 i2 v
  let r2 := st2 i2
  (st2, minimum r0 r1 r2)

/-- Run a sequence of `cms_update_retrieve` calls from a given memory. -/
def runCMS (N W D : ℤ) (st : ℤ → ℚ) : List (ℤ × ℤ × ℚ) → (ℤ → ℚ)
  | [] => st
  | e :: t => runCMS N W D (cmsUpdateRetrieve N W D st e.1 e.2.1 e.2.2).1 t

/-- The amount a single `cms_update_retrieve` call adds to cell `i`. -/
def cmsContrib (N W D : ℤ) (e : ℤ × ℤ × ℚ) (i : ℤ) : ℚ :=
  (if i = flatIdx N W D 0 e.1 e.2.1 then e.2.2 else 0) +
  (if i = flatIdx N W D 1 e.1 e.2.1 then e.2.2 else 0) +
  (if i = flatIdx N W D 2 e.1 e.2.1 then e.2.2 else 0)

theorem cmsUpdateRetrieve_state (N W D : ℤ) (st : ℤ → ℚ) (key lane : ℤ)
    (v : ℚ) (i : ℤ) :
    (cmsUpdateRetrieve N W D st key lane v).1 i = st i + cmsContrib N W D (key, lane, v) i := by
  simp only [cmsUpdateRetrieve, cmsContrib, addAt_apply]
  ring

/-- The exact accumulation for `(key, lane)` in a sequence of updates. -/
def keySum (k l : ℤ) : List (ℤ × ℤ × ℚ) → ℚ
  | [] => 0
  | e :: t => (if e.1 = k ∧ e.2.1 = l then e.2.2 else 0) + keySum k l t

theorem runCMS_apply (N W D : ℤ) (pre : List (ℤ × ℤ × ℚ)) :
    ∀ (st : ℤ → ℚ) (i : ℤ),
      runCMS N W D st pre i = st i + (pre.map (fun e => cmsContrib N W D e i)).sum := by
  induction pre with
  | nil => intro st i; simp [runCMS]
  | cons e t ih =>
      intro st i
      simp only [runCMS, List.map_cons, List.sum_cons, ih, cmsUpdateRetrieve_state]
      ring

theorem keySum_eq_sum (k l : ℤ) (pre : List (ℤ × ℤ × ℚ)) :
    keySum k l pre = (pre.map (fun e => if e.1 = k ∧ e.2.1 = l then e.2.2 else 0)).sum := by
  induction pre with
  | nil => simp [keySum]
  | cons e t ih => simp [keySum, ih]

theorem cmsContrib_nonneg (N W D : ℤ) (e : ℤ × ℤ × ℚ) (i : ℤ) (he : 0 ≤ e.2.2) :
    0 ≤ cmsContrib N W D e i := by
  unfold cmsContrib
  split_ifs <;> linarith

/-- Each entry adds at least its own matched value to each of the target's
row cells (and never subtracts, values being non-negative). -/
theorem cmsContrib_ge_keyTerm (N W D : ℤ) (e : ℤ × ℤ × ℚ) (k l : ℤ) (r : ℕ)
    (hr : r < 3) (he : 0 ≤ e.2.2) :
    (if e.1 = k ∧ e.2.1 = l then e.2.2 else 0) ≤ cmsContrib N W D e (flatIdx N W D r k l) := by
  by_cases hm : e.1 = k ∧ e.2.1 = l
  · rw [if_pos hm]
    unfold cmsContrib
    rw [hm.1, hm.2]
    interval_cases r <;>
      · simp only [eq_self_iff_true, if_true]
        split_ifs <;> linarith
  · rw [if_neg hm]
    exact cmsContrib_nonneg N W D e _ he

theorem state_ge_keySum (N W D : ℤ) (pre : List (ℤ × ℤ × ℚ)) (k l : ℤ) (r : ℕ)
    (hr : r < 3) (hpre : ∀ e ∈ pre, 0 ≤ e.2.2) :
    keySum k l pre ≤ runCMS N W D (fun _ => 0) pre (flatIdx N W D r k l) := by
  rw [runCMS_apply, keySum_eq_sum]
  simp only [zero_add]
  exact List.sum_le_sum (fun e he => cmsContrib_ge_keyTerm N W D e k l r hr (hpre e he))

/-- C1, part 1: after any sequence of non-negative updates, the estimate
returned by a further `cms_update_retrieve` for `(k, l)` is at least the exact
accumulated sum for `(k, l)`. -/
theorem cms_estimate_ge (N W D : ℤ) (pre : List (ℤ × ℤ × ℚ)) (k l : ℤ) (v : ℚ)
    (hpre : ∀ e ∈ pre, 0 ≤ e.2.2) (hv : 0 ≤ v) :
    keySum k l pre + v ≤
      (cmsUpdateRetrieve N W D (runCMS N W D (fun _ => 0) pre) k l v).2 := by
  have h0 := state_ge_keySum N W D pre k l 0 (by norm_num) hpre
  have h1 := state_ge_keySum N W D pre k l 1 (by norm_num) hpre
  have h2 := state_ge_keySum N W D pre k l 2 (by norm_num) hpre
  simp only [cmsUpdateRetrieve, minimum, addAt_apply, eq_self_iff_true, if_true]
  rw [le_min_iff, le_min_iff]
  refine ⟨⟨?_, ?_⟩, ?_⟩ <;> first
    | linarith
    | (split_ifs <;> linarith)

/-- C1, part 2: if the three row cells of `(k, l)` are pairwise distinct and
no other `(key, lane)` pair in the sequence ever hashed into any of them, the
estimate is exact. -/
theorem cms_estimate_exact (N W D : ℤ) (pre : List (ℤ × ℤ × ℚ)) (k l : ℤ) (v : ℚ)
    (hrows : ∀ r r' : ℕ, r < 3 → r' < 3 → r ≠ r' →
      flatIdx N W D r k l ≠ flatIdx N W D r' k l)
    (hiso : ∀ e ∈ pre, ¬(e.1 = k ∧ e.2.1 = l) →
      ∀ r r' : ℕ, r < 3 → r' < 3 → flatIdx N W D r' e.1 e.2.1 ≠ flatIdx N W D r k l) :
    (cmsUpdateRetrieve N W D (runCMS N W D (fun _ => 0) pre) k l v).2 =
      keySum k l pre + v := by
  have hstate : ∀ r : ℕ, r < 3 →
      runCMS N W D (fun _ => 0) pre (flatIdx N W D r k l) = keySum k l pre := by
    intro r hr
    rw [runCMS_apply, keySum_eq_sum]
    simp only [zero_add]
    congr 1
    apply List.map_congr_left
    intro e he
    by_cases hm : e.1 = k ∧ e.2.1 = l
    · obtain ⟨hm1, hm2⟩ := hm
      unfold cmsContrib
      rw [hm1, hm2]
      interval_cases r
      · rw [if_pos rfl, if_neg (fun h => hrows 0 1 (by norm_num) (by norm_num) (by norm_num) h),
            if_neg (fun h => hrows 0 2 (by norm_num) (by norm_num) (by norm_num) h)]
        simp [hm1, hm2]
      · rw [if_neg (fun h => hrows 1 0 (by norm_num) (by norm_num) (by norm_num) h),
            if_pos rfl,
            if_neg (fun h => hrows 1 2 (by norm_num) (by norm_num) (by norm_num) h)]
        simp [hm1, hm2]
      · rw [if_neg (fun h => hrows 2 0 (by norm_num) (by norm_num) (by norm_num) h),
            if_neg (fun h => hrows 2 1 (by norm_num) (by norm_num) (by norm_num) h),
            if_pos rfl]
        simp [hm1, hm2]
    · unfold cmsContrib
      rw [if_neg hm]
      rw [if_neg (fun h => hiso e he hm r 0 hr (by norm_num) h.symm),
          if_neg (fun h => hiso e he hm r 1 hr (by norm_num) h.symm),
          if_neg (fun h => hiso e he hm r 2 hr (by norm_num) h.symm)]
      ring
  have d01 : flatIdx N W D 1 k l ≠ flatIdx N W D 0 k l :=
    hrows 1 0 (by norm_num) (by norm_num) (by norm_num)
  have d20 : flatIdx N W D 2 k l ≠ flatIdx N W D 0 k l :=
    hrows 2 0 (by norm_num) (by norm_num) (by norm_num)
  have d21 : flatIdx N W D 2 k l ≠ flatIdx N W D 1 k l :=
    hrows 2 1 (by norm_num) (by norm_num) (by norm_num)
  simp only [cmsUpdateRetrieve, minimum, addAt_apply, eq_self_iff_true, if_true,
    if_neg d01, if_neg d20, if_neg d21]
  rw [hstate 0 (by norm_num), hstate 1 (by norm_num), hstate 2 (by norm_num)]
  ring_nf
  rw [min_self, min_self]

/-- C1: the Count-Min estimate dominates the exact accumulation, with
equality in the collision-free case. -/
theorem cms_overestimate (N W D : ℤ) (pre : List (ℤ × ℤ × ℚ)) (k l : ℤ) (v : ℚ)
    (hpre : ∀ e ∈ pre, 0 ≤ e.2.2) (hv : 0 ≤ v) :
    keySum k l pre + v ≤
      (cmsUpdateRetrieve N W D (runCMS N W D (fun _ => 0) pre) k l v).2 ∧
    ((∀ r r' : ℕ, r < 3 → r' < 3 → r ≠ r' →
        flatIdx N W D r k l ≠ flatIdx N W D r' k l) →
     (∀ e ∈ pre, ¬(e.1 = k ∧ e.2.1 = l) →
        ∀ r r' : ℕ, r < 3 → r' < 3 → flatIdx N W D r' e.1 e.2.1 ≠ flatIdx N W D r k l) →
     (cmsUpdateRetrieve N W D (runCMS N W D (fun _ => 0) pre) k l v).2 =
        keySum k l pre + v) :=
  ⟨cms_estimate_ge N W D pre k l v hpre hv,
   fun hrows hiso => cms_estimate_exact N W D pre k l v hrows hiso⟩

/-- Witness for C1: one update of `(key 0, lane 0, value 1)` on an empty
sketch with `range = 5`, `W = 10`, `D = 2`; its three rows are distinct cells
and the returned estimate is exactly `1`. -/
theorem cms_overestimate_witness :
    (∀ e ∈ ([] : List (ℤ × ℤ × ℚ)), 0 ≤ e.2.2) ∧ (0 : ℚ) ≤ 1 ∧
    (∀ r r' : ℕ, r < 3 → r' < 3 → r ≠ r' →
      flatIdx 5 10 2 r 0 0 ≠ flatIdx 5 10 2 r' 0 0) ∧
    (cmsUpdateRetrieve 5 10 2 (runCMS 5 10 2 (fun _ => 0) []) 0 0 1).2 =
      keySum 0 0 [] + 1 := by
  have hrows : ∀ r r' : ℕ, r < 3 → r' < 3 → r ≠ r' →
      flatIdx 5 10 2 r 0 0 ≠ flatIdx 5 10 2 r' 0 0 := by
    intro r r' hr hr' hne
    interval_cases r <;> interval_cases r' <;>
      first
        | exact absurd rfl hne
        | decide
  exact ⟨by simp, by norm_num, hrows,
    (cms_overestimate 5 10 2 [] 0 0 1 (by simp) (by norm_num)).2 hrows (by simp)⟩

/-! ## Constructor geometry (`CountMinSketch.__init__`, `DenseCMS.__init__`) -/

/-- Python `int()` applied to a rational: truncation toward zero. -/
def pyInt (q : ℚ) : ℤ := if q < 0 then -Int.floor (-q) else Int.floor q

/-- `self.range = int(N * sketch_size / 3.)` from `CountMinSketch.__init__`
(`cms.py:90`); note the absence of any clamp. -/
def cmsRange (N : ℤ) (sketch_size : ℚ) : ℤ := pyInt ((N * sketch_size) / 3)

/-- `self.range = max(int(D * sketch_size), 1)` from `DenseCMS.__init__`
(`dense_exp_cms.py:141`). -/
def denseCmsRange (D : ℤ) (sketch_size : ℚ) : ℤ := max (pyInt (D * sketch_size)) 1

/-- C8 counterexample: constructing `CountMinSketch` with `N = 1` at the
default size fraction `0.20` yields a row width of `0`, not at least `1`. -/
theorem cmsRange_not_clamped :
    cmsRange 1 (1 / 5) = 0 ∧ ¬(1 ≤ cmsRange 1 (1 / 5)) := by
  have h : cmsRange 1 (1 / 5) = 0 := by
    unfold cmsRange pyInt
    norm_num
  exact ⟨h, by rw [h]; norm_num⟩

/-- C8 (amended): `DenseCMS.__init__` does clamp its width to at least `1`
for every dimension and size fraction, but `CountMinSketch.__init__` does
not (its width is `0` whenever `N * sketch_size < 3`). -/
theorem width_clamping :
    (∀ (D : ℤ) (s : ℚ), 1 ≤ denseCmsRange D s) ∧ cmsRange 1 (1 / 5) = 0 :=
  ⟨fun _ _ => le_max_right _ _, (cmsRange_not_clamped).1⟩

/-! ## Decay (`clean`) and the addressable estimate -/

/-- The current estimate a sketch holds for `(k, l)`: the minimum of its
three row cells (what `cms_update_retrieve` would return for value `0`). -/
def cmsQuery (N W D : ℤ) (st : ℤ → ℚ) (k l : ℤ) : ℚ :=
  minimum (st (flatIdx N W D 0 k l)) (st (flatIdx N W D 1 k l))
    (st (flatIdx N W D 2 k l))

theorem cmsQuery_eq_zero_update (N W D : ℤ) (st : ℤ → ℚ) (k l : ℤ) :
    cmsQuery N W D st k l = (cmsUpdateRetrieve N W D st k l 0).2 := by
  simp [cmsQuery, cmsUpdateRetrieve, addAt_apply, minimum]

/-- Modelled from the spec: the sparse path's second-moment sketch is
`exp_cms.CountMinSketch`, whose module is not among the sources; per the
spec, `clean(alpha)` multiplies all storage by `alpha`. -/
def specSketchClean (st : ℤ → ℚ) (alpha : ℚ) : ℤ → ℚ := fun i => st i * alpha

/-- `DenseCMS.clean(alpha)`: `self.cms.mul_(alpha)`
(`dense_exp_cms.py:194-195`). -/
def denseCmsClean (cms : ℤ → ℝ) (alpha : ℝ) : ℤ → ℝ := fun i => cms i * alpha

/-- The decay phase of `Adam.sparse` (`adam_error.py:127-129`): after
`state['step'] += 1`, the second-moment sketch is cleaned with `0.25`
exactly when the incremented counter is a multiple of `1000`. -/
def sparseCleanPhase (stepBefore : ℕ) (tbl : ℤ → ℚ) : ℤ → ℚ :=
  if (stepBefore + 1) % 1000 = 0 then specSketchClean tbl (1 / 4) else tbl

/-- C7: `clean` multiplies every stored value by `alpha`, hence scales every
addressable estimate by exactly `alpha`, and the sparse path invokes the
decay exactly when the incremented step counter is a multiple of `1000`. -/
theorem clean_scales (alpha : ℚ) (h0 : 0 ≤ alpha) (h1 : alpha < 1) :
    (∀ (cms : ℤ → ℝ) (a : ℝ) (i : ℤ), denseCmsClean cms a i = cms i * a) ∧
    (∀ (st : ℤ → ℚ) (i : ℤ), specSketchClean st alpha i = st i * alpha) ∧
    (∀ (N W D : ℤ) (st : ℤ → ℚ) (k l : ℤ),
      cmsQuery N W D (specSketchClean st alpha) k l = alpha * cmsQuery N W D st k l) ∧
    (∀ (stp : ℕ) (tbl : ℤ → ℚ),
      ((stp + 1) % 1000 = 0 → sparseCleanPhase stp tbl = specSketchClean tbl (1 / 4)) ∧
      ((stp + 1) % 1000 ≠ 0 → sparseCleanPhase stp tbl = tbl)) := by
  refine ⟨fun _ _ _ => rfl, fun _ _ => rfl, ?_, ?_⟩
  · intro N W D st k l
    unfold cmsQuery specSketchClean minimum
    rw [mul_min_of_nonneg _ _ h0, mul_min_of_nonneg _ _ h0]
    ring_nf
  · intro stp tbl
    constructor
    · intro h
      unfold sparseCleanPhase
      rw [if_pos h]
    · intro h
      unfold sparseCleanPhase
      rw [if_neg h]

/-- Witness for C7 at `alpha = 1/2`. -/
theorem clean_scales_witness :
    ((0 : ℚ) ≤ 1 / 2 ∧ (1 / 2 : ℚ) < 1) ∧
    ((∀ (cms : ℤ → ℝ) (a : ℝ) (i : ℤ), denseCmsClean cms a i = cms i * a) ∧
     (∀ (st : ℤ → ℚ) (i : ℤ),
        specSketchClean st (1 / 2) i = st i * (1 / 2)) ∧
     (∀ (N W D : ℤ) (st : ℤ → ℚ) (k l : ℤ),
        cmsQuery N W D (specSketchClean st (1 / 2)) k l =
          (1 / 2) * cmsQuery N W D st k l) ∧
     (∀ (stp : ℕ) (tbl : ℤ → ℚ),
        ((stp + 1) % 1000 = 0 →
          sparseCleanPhase stp tbl = specSketchClean tbl (1 / 4)) ∧
        ((stp + 1) % 1000 ≠ 0 → sparseCleanPhase stp tbl = tbl))) :=
  ⟨⟨by norm_num, by norm_num⟩, clean_scales (1 / 2) (by norm_num) (by norm_num)⟩

/-! ## DenseHashCompressor kernels (`optimizers/dense_exp_cms.py`)

Both kernels run per block `blk` (one parameter row): stage the `W` (resp.
`D`) auxiliary values of the block into a scratch snapshot `aux`, zero an
accumulate scratch `acc`, then for each coordinate compute
`v = beta*aux[bucket] + (1-beta)*g²`, add `lr*g*rsqrtf(v + 1e-10)` to the
parameter and `g²` to `acc[bucket]`, and finally commit
`(1-beta)*(acc - aux)` into the persistent buffer `mem`.  The sequential
loop below is the race-free idealisation the three-phase pattern targets. -/

/-- Bucket of global coordinate `idx`:
`hash(offset + index, W, 994443, 609478)` (`dense_exp_cms.py:58`). -/
def denseBucket (W idx : ℤ) : ℤ := hash idx W 994443 609478

/-- The EMA approximation `v = beta * aux[h] + (1. - beta) * value`
(`dense_exp_cms.py:59,115`). -/
def vApprox (beta old value : ℝ) : ℝ := beta * old + (1 - beta) * value

/-- The parameter increment `lr * g * rsqrtf(v + 1e-10)`
(`dense_exp_cms.py:62,118`). -/
noncomputable def paramDelta (lr g v : ℝ) : ℝ := lr * g * (Real.sqrt (v + 1 / 10 ^ 10))⁻¹

/-- In-flight state of a kernel's update loop: the parameter array and the
accumulate scratch. -/
structure LoopSt where
  par : ℤ → ℝ
  acc : ℤ → ℝ

/-- Update loop of `dense_cms_update` over coordinates `0 .. n-1`; `aux` is
the staged pre-step snapshot, never written during the loop. -/
noncomputable def cmsLoop (W D blk : ℤ) (lr beta : ℝ) (g aux par : ℤ → ℝ) : ℕ → LoopSt
  | 0 => ⟨par, fun _ => 0⟩
  | n + 1 =>
    let s := cmsLoop W D blk lr beta g aux par n
    let gi := blk * D + (n : ℤ)
    let value := g gi ^ 2
    let hi := denseBucket W gi
    let v := vApprox beta (aux hi) value
    ⟨updf s.par gi (s.par gi + paramDelta lr (g gi) v),
     updf s.acc hi (s.acc hi + value)⟩

/-- The `dense_cms_update` kernel (`dense_exp_cms.py:22-77`) for one block:
returns the updated parameter array and updated persistent buffer. -/
noncomputable def denseCmsKernel (W D : ℕ) (blk : ℤ) (lr beta : ℝ) (par g mem : ℤ → ℝ) :
    (ℤ → ℝ) × (ℤ → ℝ) :=
  let aux := fun i => mem (blk * (W : ℤ) + i)
  let s := cmsLoop (W : ℤ) (D : ℤ) blk lr beta g aux par D
  (s.par,
   fun j =>
     if blk * (W : ℤ) ≤ j ∧ j < blk * (W : ℤ) + (W : ℤ) then
       mem j + (1 - beta) * (s.acc (j - blk * (W : ℤ)) - aux (j - blk * (W : ℤ)))
     else mem j)

theorem cmsLoop_acc (W D blk : ℤ) (lr beta : ℝ) (g aux par : ℤ → ℝ) :
    ∀ (n : ℕ) (i : ℤ),
      (cmsLoop W D blk lr beta g aux par n).acc i =
        ∑ d ∈ Finset.range n,
          (if denseBucket W (blk * D + (d : ℤ)) = i then g (blk * D + (d : ℤ)) ^ 2 else 0) := by
  intro n
  induction n with
  | zero => intro i; simp [cmsLoop]
  | succ n ih =>
      intro i
      rw [Finset.sum_range_succ, ← ih i]
      simp only [cmsLoop, updf]
      by_cases h : i = denseBucket W (blk * D + (n : ℤ))
      · rw [if_pos h, if_pos h.symm, h]
      · rw [if_neg h, if_neg (fun hh => h hh.symm), add_zero]

theorem cmsLoop_par_untouched (W D blk : ℤ) (lr beta : ℝ) (g aux par : ℤ → ℝ) :
    ∀ (n : ℕ) (j : ℤ), (∀ d : ℕ, d < n → j ≠ blk * D + (d : ℤ)) →
      (cmsLoop W D blk lr beta g aux par n).par j = par j := by
  intro n
  induction n with
  | zero => intro j _; rfl
  | succ n ih =>
      intro j hj
      simp only [cmsLoop, updf]
      rw [if_neg (hj n (Nat.lt_succ_self n))]
      exact ih j (fun d hd => hj d (Nat.lt_succ_of_lt hd))

theorem cmsLoop_par (W D blk : ℤ) (lr beta : ℝ) (g aux par : ℤ → ℝ) :
    ∀ (n d : ℕ), d < n →
      (cmsLoop W D blk lr beta g aux par n).par (blk * D + (d : ℤ)) =
        par (blk * D + (d : ℤ)) +
          paramDelta lr (g (blk * D + (d : ℤ)))
            (vApprox beta (aux (denseBucket W (blk * D + (d : ℤ))))
              (g (blk * D + (d : ℤ)) ^ 2)) := by
  intro n
  induction n with
  | zero => intro d hd; exact absurd hd (Nat.not_lt_zero d)
  | succ n ih =>
      intro d hd
      rcases Nat.lt_succ_iff_lt_or_eq.mp hd with hd' | rfl
      · have hne : blk * D + (d : ℤ) ≠ blk * D + (n : ℤ) := by
          intro h
          omega
        simp only [cmsLoop, updf]
        rw [if_neg hne]
        exact ih d hd'
      · simp only [cmsLoop, updf, eq_self_iff_true, if_true]
        rw [cmsLoop_par_untouched W D blk lr beta g aux par d (blk * D + (d : ℤ))
          (fun d' hd' => by intro h; omega)]

/-- C2: in `dense_cms_update`, every coordinate's adaptive value is computed
from the staged pre-step snapshot of its bucket (its parameter update depends
only on the pre-step buffer), and the committed buffer holds
`beta*old + (1-beta)*(sum of g² over the coordinates hashed to the bucket)`. -/
theorem dense_cms_kernel_correct (W D : ℕ) (blk : ℤ) (lr beta : ℝ)
    (par g mem : ℤ → ℝ) (i : ℤ) (h0 : 0 ≤ i) (h1 : i < (W : ℤ)) :
    (∀ d : ℕ, d < D →
      (denseCmsKernel W D blk lr beta par g mem).1 (blk * (D : ℤ) + (d : ℤ)) =
        par (blk * (D : ℤ) + (d : ℤ)) +
          paramDelta lr (g (blk * (D : ℤ) + (d : ℤ)))
            (vApprox beta
              (mem (blk * (W : ℤ) + denseBucket (W : ℤ) (blk * (D : ℤ) + (d : ℤ))))
              (g (blk * (D : ℤ) + (d : ℤ)) ^ 2))) ∧
    (denseCmsKernel W D blk lr beta par g mem).2 (blk * (W : ℤ) + i) =
      beta * mem (blk * (W : ℤ) + i) +
        (1 - beta) * ∑ d ∈ Finset.range D,
          (if denseBucket (W : ℤ) (blk * (D : ℤ) + (d : ℤ)) = i
            then g (blk * (D : ℤ) + (d : ℤ)) ^ 2 else 0) := by
  constructor
  · intro d hd
    exact cmsLoop_par (W : ℤ) (D : ℤ) blk lr beta g _ par D d hd
  · show (if blk * (W : ℤ) ≤ blk * (W : ℤ) + i ∧
        blk * (W : ℤ) + i < blk * (W : ℤ) + (W : ℤ) then _ else _) = _
    rw [if_pos ⟨by omega, by omega⟩]
    rw [show blk * (W : ℤ) + i - blk * (W : ℤ) = i by ring]
    rw [cmsLoop_acc]
    ring

/-- Witness for C2 on a one-coordinate block with `W = D = 1`. -/
theorem dense_cms_kernel_correct_witness :
    ((0 : ℤ) ≤ 0 ∧ (0 : ℤ) < ((1 : ℕ) : ℤ)) ∧
    ((∀ d : ℕ, d < 1 →
      (denseCmsKernel 1 1 0 1 (1 / 2) (fun _ => 0) (fun _ => 1) (fun _ => 0)).1
          (0 * ((1 : ℕ) : ℤ) + (d : ℤ)) =
        (fun _ => (0 : ℝ)) (0 * ((1 : ℕ) : ℤ) + (d : ℤ)) +
          paramDelta 1 ((fun _ => (1 : ℝ)) (0 * ((1 : ℕ) : ℤ) + (d : ℤ)))
            (vApprox (1 / 2)
              ((fun _ => (0 : ℝ))
                (0 * ((1 : ℕ) : ℤ) + denseBucket ((1 : ℕ) : ℤ) (0 * ((1 : ℕ) : ℤ) + (d : ℤ))))
              ((fun _ => (1 : ℝ)) (0 * ((1 : ℕ) : ℤ) + (d : ℤ)) ^ 2))) ∧
    (denseCmsKernel 1 1 0 1 (1 / 2) (fun _ => 0) (fun _ => 1) (fun _ => 0)).2
        (0 * ((1 : ℕ) : ℤ) + 0) =
      (1 / 2) * (fun _ => (0 : ℝ)) (0 * ((1 : ℕ) : ℤ) + 0) +
        (1 - 1 / 2) * ∑ d ∈ Finset.range 1,
          (if denseBucket ((1 : ℕ) : ℤ) (0 * ((1 : ℕ) : ℤ) + (d : ℤ)) = 0
            then (fun _ => (1 : ℝ)) (0 * ((1 : ℕ) : ℤ) + (d : ℤ)) ^ 2 else 0)) :=
  ⟨⟨le_refl 0, by norm_num⟩,
   dense_cms_kernel_correct 1 1 0 1 (1 / 2) (fun _ => 0) (fun _ => 1) (fun _ => 0) 0
     (le_refl 0) (by norm_num)⟩

/-- Update loop of the no-hashing kernel `dense_update`
(`dense_exp_cms.py:107-124`): identical to `cmsLoop` except that coordinate
`index` reads `aux[index]` and accumulates into `acc[index]` directly. -/
noncomputable def denseLoop (D blk : ℤ) (lr beta : ℝ) (g aux par : ℤ → ℝ) : ℕ → LoopSt
  | 0 => ⟨par, fun _ => 0⟩
  | n + 1 =>
    let s := denseLoop D blk lr beta g aux par n
    let gi := blk * D + (n : ℤ)
    let value := g gi ^ 2
    let v := vApprox beta (aux (n : ℤ)) value
    ⟨updf s.par gi (s.par gi + paramDelta lr (g gi) v),
     updf s.acc (n : ℤ) (s.acc (n : ℤ) + value)⟩

/-- The `dense_update` kernel (`dense_exp_cms.py:79-133`) for one block. -/
noncomputable def denseKernel (D : ℕ) (blk : ℤ) (lr beta : ℝ) (par g mem : ℤ → ℝ) :
    (ℤ → ℝ) × (ℤ → ℝ) :=
  let aux := fun i => mem (blk * (D : ℤ) + i)
  let s := denseLoop (D : ℤ) blk lr beta g aux par D
  (s.par,
   fun j =>
     if blk * (D : ℤ) ≤ j ∧ j < blk * (D : ℤ) + (D : ℤ) then
       mem j + (1 - beta) * (s.acc (j - blk * (D : ℤ)) - aux (j - blk * (D : ℤ)))
     else mem j)

/-- Which kernel `DenseCMS.initialize` compiles (`dense_exp_cms.py:168-173`). -/
inductive KernelChoice : Type
  | denseUpdate : KernelChoice
  | denseCmsUpdate : KernelChoice
deriving DecidableEq

/-- `initialize`: route to `dense_update` iff `self.D == self.range`. -/
def initializeKernel (D range : ℤ) : KernelChoice :=
  if D = range then KernelChoice.denseUpdate else KernelChoice.denseCmsUpdate

theorem denseLoop_acc (D blk : ℤ) (lr beta : ℝ) (g aux par : ℤ → ℝ) :
    ∀ (n : ℕ) (i : ℤ),
      (denseLoop D blk lr beta g aux par n).acc i =
        ∑ d ∈ Finset.range n, (if (d : ℤ) = i then g (blk * D + (d : ℤ)) ^ 2 else 0) := by
  intro n
  induction n with
  | zero => intro i; simp [denseLoop]
  | succ n ih =>
      intro i
      rw [Finset.sum_range_succ, ← ih i]
      simp only [denseLoop, updf]
      by_cases h : i = (n : ℤ)
      · rw [if_pos h, if_pos h.symm, h]
      · rw [if_neg h, if_neg (fun hh => h hh.symm), add_zero]

/-- The committed buffer value of `dense_update` at in-block coordinate `d`:
exactly the per-coordinate EMA `beta*old + (1-beta)*g²`. -/
theorem denseKernel_mem (D : ℕ) (blk : ℤ) (lr beta : ℝ) (par g mem : ℤ → ℝ)
    (d : ℕ) (hd : d < D) :
    (denseKernel D blk lr beta par g mem).2 (blk * (D : ℤ) + (d : ℤ)) =
      beta * mem (blk * (D : ℤ) + (d : ℤ)) +
        (1 - beta) * g (blk * (D : ℤ) + (d : ℤ)) ^ 2 := by
  show (if blk * (D : ℤ) ≤ blk * (D : ℤ) + (d : ℤ) ∧
      blk * (D : ℤ) + (d : ℤ) < blk * (D : ℤ) + (D : ℤ) then _ else _) = _
  rw [if_pos ⟨by omega, by omega⟩]
  rw [show blk * (D : ℤ) + (d : ℤ) - blk * (D : ℤ) = (d : ℤ) by ring]
  rw [denseLoop_acc]
  simp only [Nat.cast_inj]
  rw [Finset.sum_ite_eq' (Finset.range D) d (fun d' => g (blk * (D : ℤ) + (d' : ℤ)) ^ 2)]
  rw [if_pos (Finset.mem_range.mpr hd)]
  ring

/-- C5: with `W == D` the compressor routes to the distinct no-hashing kernel
`dense_update`, and on that path two successive steps with the same gradient
leave each coordinate's auxiliary value at `beta*v1 + (1-beta)*g²`, where
`v1` is the value after the first step: a plain per-coordinate adaptive
update. -/
theorem dense_no_hash_path (W D : ℕ) (hWD : W = D) (blk : ℤ) (lr beta : ℝ)
    (par g mem : ℤ → ℝ) (d : ℕ) (hd : d < D) :
    initializeKernel (D : ℤ) (W : ℤ) = KernelChoice.denseUpdate ∧
    (denseKernel D blk lr beta (denseKernel D blk lr beta par g mem).1 g
        (denseKernel D blk lr beta par g mem).2).2 (blk * (D : ℤ) + (d : ℤ)) =
      beta * (denseKernel D blk lr beta par g mem).2 (blk * (D : ℤ) + (d : ℤ)) +
        (1 - beta) * g (blk * (D : ℤ) + (d : ℤ)) ^ 2 := by
  constructor
  · unfold initializeKernel
    rw [if_pos (by rw [hWD])]
  · exact denseKernel_mem D blk lr beta _ g _ d hd

/-- Witness for C5 with `W = D = 1` on a concrete block. -/
theorem dense_no_hash_path_witness :
    ((1 : ℕ) = 1 ∧ (0 : ℕ) < 1) ∧
    (initializeKernel ((1 : ℕ) : ℤ) ((1 : ℕ) : ℤ) = KernelChoice.denseUpdate ∧
     (denseKernel 1 0 1 (1 / 2)
         (denseKernel 1 0 1 (1 / 2) (fun _ => 0) (fun _ => 1) (fun _ => 0)).1
         (fun _ => 1)
         (denseKernel 1 0 1 (1 / 2) (fun _ => 0) (fun _ => 1) (fun _ => 0)).2).2
        (0 * ((1 : ℕ) : ℤ) + ((0 : ℕ) : ℤ)) =
      (1 / 2) *
          (denseKernel 1 0 1 (1 / 2) (fun _ => 0) (fun _ => 1) (fun _ => 0)).2
            (0 * ((1 : ℕ) : ℤ) + ((0 : ℕ) : ℤ)) +
        (1 - 1 / 2) * (fun _ => (1 : ℝ)) (0 * ((1 : ℕ) : ℤ) + ((0 : ℕ) : ℤ)) ^ 2) :=
  ⟨⟨rfl, by norm_num⟩,
   dense_no_hash_path 1 1 rfl 0 1 (1 / 2) (fun _ => 0) (fun _ => 1) (fun _ => 0) 0
     (by norm_num)⟩

/-! ## The Adam driver (`adam_error.py`)

Tensors are modelled as total functions `ℤ → ℝ` (one cell per coordinate);
sparse gradients as lists of `(index, value)` pairs. -/

/-- The optimizer hyperparameters of `Adam.__init__`. -/
structure AdamHyper where
  lr : ℝ
  beta1 : ℝ
  beta2 : ℝ
  eps : ℝ
  wd : ℝ
  amsgrad : Bool

/-- Construction-time validation (`adam_error.py:33-40`): `0 <= lr`,
`0 <= eps`, `0 <= betas[i] < 1`; `weight_decay` and `amsgrad` are not
checked. -/
def validHyper (h : AdamHyper) : Prop :=
  0 ≤ h.lr ∧ 0 ≤ h.eps ∧ (0 ≤ h.beta1 ∧ h.beta1 < 1) ∧ (0 ≤ h.beta2 ∧ h.beta2 < 1)

/-- Dense per-parameter state (`adam_error.py:58-66`). -/
structure DenseSt where
  step : ℕ
  expAvg : ℤ → ℝ
  expAvgSq : ℤ → ℝ
  maxExpAvgSq : ℤ → ℝ

/-- Weight decay (`adam_error.py:74-75`): `grad = grad.add(weight_decay,
p.data)` when `weight_decay != 0`. -/
noncomputable def wdGrad (h : AdamHyper) (p grad : ℤ → ℝ) : ℤ → ℝ :=
  if h.wd = 0 then grad else fun i => grad i + h.wd * p i

/-- The dense update denominator (`adam_error.py:80-87`): the square root of
`max_exp_avg_sq` (with AMSGrad) or of `exp_avg_sq`, plus `eps`. -/
noncomputable def denseDenom (amsgrad : Bool) (eps : ℝ)
    (expAvgSq maxExpAvgSq : ℤ → ℝ) : ℤ → ℝ :=
  if amsgrad then fun i => Real.sqrt (maxExpAvgSq i) + eps
  else fun i => Real.sqrt (expAvgSq i) + eps

/-- One `Adam.dense` step (`adam_error.py:53-92`), returning the new state
and the new parameter tensor. -/
noncomputable def denseStep (h : AdamHyper) (p grad : ℤ → ℝ) (s : DenseSt) :
    DenseSt × (ℤ → ℝ) :=
  let stp := s.step + 1
  let g := wdGrad h p grad
  let ea := fun i => h.beta1 * s.expAvg i + (1 - h.beta1) * g i
  let eas := fun i => h.beta2 * s.expAvgSq i + (1 - h.beta2) * (g i * g i)
  let mx := if h.amsgrad then fun i => max (s.maxExpAvgSq i) (eas i) else s.maxExpAvgSq
  let denom := denseDenom h.amsgrad h.eps eas mx
  let bc1 := 1 - h.beta1 ^ stp
  let bc2 := 1 - h.beta2 ^ stp
  let ss := h.lr * Real.sqrt bc2 / bc1
  (⟨stp, ea, eas, mx⟩, fun i => p i + -ss * (ea i / denom i))

/-- C10: with AMSGrad enabled the tracked maximum after a step is the
pointwise maximum of its previous value and the fresh `exp_avg_sq` (hence
pointwise non-decreasing), and it is its square root (plus `eps`) that forms
the update denominator. -/
theorem amsgrad_max_tracking (h : AdamHyper) (ham : h.amsgrad = true)
    (p grad : ℤ → ℝ) (s : DenseSt) (i : ℤ) :
    (denseStep h p grad s).1.maxExpAvgSq i =
      max (s.maxExpAvgSq i) ((denseStep h p grad s).1.expAvgSq i) ∧
    s.maxExpAvgSq i ≤ (denseStep h p grad s).1.maxExpAvgSq i ∧
    (denseStep h p grad s).2 i =
      p i + -(h.lr * Real.sqrt (1 - h.beta2 ^ (s.step + 1)) /
          (1 - h.beta1 ^ (s.step + 1))) *
        ((denseStep h p grad s).1.expAvg i /
          (Real.sqrt ((denseStep h p grad s).1.maxExpAvgSq i) + h.eps)) := by
  refine ⟨?_, ?_, ?_⟩ <;>
    simp only [denseStep, denseDenom, ham, if_true] <;>
    first
      | rfl
      | exact le_max_left _ _

/-- Witness for C10 on concrete data. -/
theorem amsgrad_max_tracking_witness :
    (AdamHyper.mk 1 (9 / 10) (99 / 100) (1 / 100) 0 true).amsgrad = true ∧
    ((denseStep ⟨1, 9 / 10, 99 / 100, 1 / 100, 0, true⟩ (fun _ => 0) (fun _ => 1)
        ⟨0, fun _ => 0, fun _ => 0, fun _ => 0⟩).1.maxExpAvgSq 0 =
      max ((fun _ => (0 : ℝ)) 0)
        ((denseStep ⟨1, 9 / 10, 99 / 100, 1 / 100, 0, true⟩ (fun _ => 0) (fun _ => 1)
            ⟨0, fun _ => 0, fun _ => 0, fun _ => 0⟩).1.expAvgSq 0) ∧
     (fun _ => (0 : ℝ)) 0 ≤
       (denseStep ⟨1, 9 / 10, 99 / 100, 1 / 100, 0, true⟩ (fun _ => 0) (fun _ => 1)
          ⟨0, fun _ => 0, fun _ => 0, fun _ => 0⟩).1.maxExpAvgSq 0 ∧
     (denseStep ⟨1, 9 / 10, 99 / 100, 1 / 100, 0, true⟩ (fun _ => 0) (fun _ => 1)
         ⟨0, fun _ => 0, fun _ => 0, fun _ => 0⟩).2 0 =
       (fun _ => (0 : ℝ)) 0 +
         -((1 : ℝ) * Real.sqrt (1 - (99 / 100 : ℝ) ^ (0 + 1)) /
             (1 - (9 / 10 : ℝ) ^ (0 + 1))) *
           ((denseStep ⟨1, 9 / 10, 99 / 100, 1 / 100, 0, true⟩ (fun _ => 0) (fun _ => 1)
               ⟨0, fun _ => 0, fun _ => 0, fun _ => 0⟩).1.expAvg 0 /
             (Real.sqrt
                ((denseStep ⟨1, 9 / 10, 99 / 100, 1 / 100, 0, true⟩ (fun _ => 0)
                    (fun _ => 1) ⟨0, fun _ => 0, fun _ => 0, fun _ => 0⟩).1.maxExpAvgSq 0) +
               1 / 100))) :=
  ⟨rfl, amsgrad_max_tracking ⟨1, 9 / 10, 99 / 100, 1 / 100, 0, true⟩ rfl
    (fun _ => 0) (fun _ => 1) ⟨0, fun _ => 0, fun _ => 0, fun _ => 0⟩ 0⟩

/-! ## Sparse gradients and `coalesce`

`Adam.sparse` begins with `grad = grad.coalesce()` (`adam_error.py:113`).
`torch.sparse` coalescing returns a tensor with unique, sorted indices whose
values are the sums of the duplicate entries; it is modelled here by ordered
insertion that merges equal keys by addition. -/

/-- One step of coalescing: insert `(k, v)` into a key-sorted list, adding
`v` into an existing entry when the key is already present. -/
def insertCoal {α : Type} [Add α] (k : ℤ) (v : α) : List (ℤ × α) → List (ℤ × α)
  | [] => [(k, v)]
  | (k', v') :: t =>
    if k < k' then (k, v) :: (k', v') :: t
    else if k = k' then (k', v' + v) :: t
    else (k', v') :: insertCoal k v t

/-- `torch.sparse` `coalesce()` on an `(index, value)` list. -/
def coalesce {α : Type} [Add α] (l : List (ℤ × α)) : List (ℤ × α) :=
  l.foldl (fun acc e => insertCoal e.1 e.2 acc) []

/-- `grad = grad.coalesce()` — the sparse path's own de-duplication
(`adam_error.py:113`). -/
def sparseGradCoalesce {α : Type} [Add α] (grad : List (ℤ × α)) : List (ℤ × α) :=
  coalesce grad

/-- Total value accumulated for key `k` in an `(index, value)` list. -/
def totalAt {α : Type} [AddCommMonoid α] (k : ℤ) : List (ℤ × α) → α
  | [] => 0
  | e :: t => (if e.1 = k then e.2 else 0) + totalAt k t

theorem totalAt_insertCoal {α : Type} [AddCommMonoid α] (k k₀ : ℤ) (v : α) :
    ∀ l : List (ℤ × α),
      totalAt k (insertCoal k₀ v l) = (if k₀ = k then v else 0) + totalAt k l := by
  intro l
  induction l with
  | nil => simp [insertCoal, totalAt]
  | cons e t ih =>
      obtain ⟨k', v'⟩ := e
      by_cases hlt : k₀ < k'
      · rw [show insertCoal k₀ v ((k', v') :: t) = (k₀, v) :: (k', v') :: t from by
          simp [insertCoal, hlt]]
        simp only [totalAt]
        try abel
      · by_cases heq : k₀ = k'
        · rw [show insertCoal k₀ v ((k', v') :: t) = (k', v' + v) :: t from by
            simp [insertCoal, hlt, heq]]
          subst heq
          simp only [totalAt]
          by_cases hk : k₀ = k
          · rw [if_pos hk, if_pos hk, if_pos hk]
            abel
          · rw [if_neg hk, if_neg hk, if_neg hk]
            abel
        · rw [show insertCoal k₀ v ((k', v') :: t) = (k', v') :: insertCoal k₀ v t from by
            simp [insertCoal, hlt, heq]]
          simp only [totalAt, ih]
          abel

theorem totalAt_coalesce_aux {α : Type} [AddCommMonoid α] (k : ℤ) :
    ∀ (l acc : List (ℤ × α)),
      totalAt k (l.foldl (fun acc e => insertCoal e.1 e.2 acc) acc) =
        totalAt k acc + totalAt k l := by
  intro l
  induction l with
  | nil => intro acc; simp [totalAt]
  | cons e t ih =>
      intro acc
      simp only [List.foldl_cons, ih, totalAt_insertCoal, totalAt]
      abel

/-- Coalescing preserves the total value of every key. -/
theorem totalAt_coalesce {α : Type} [AddCommMonoid α] (k : ℤ) (l : List (ℤ × α)) :
    totalAt k (coalesce l) = totalAt k l := by
  unfold coalesce
  rw [totalAt_coalesce_aux k l []]
  simp [totalAt]

/-- Keys are strictly sorted (hence unique) in a coalesced list. -/
def keySorted {α : Type} (l : List (ℤ × α)) : Prop :=
  l.Pairwise (fun e e' => e.1 < e'.1)

theorem insertCoal_sorted {α : Type} [Add α] (k : ℤ) (v : α) :
    ∀ l : List (ℤ × α), keySorted l →
      keySorted (insertCoal k v l) ∧
      ∀ e ∈ insertCoal k v l, e.1 = k ∨ e.1 ∈ l.map Prod.fst := by
  intro l
  induction l with
  | nil =>
      intro _
      constructor
      · show keySorted [(k, v)]
        exact List.pairwise_singleton _ _
      · intro e he
        simp only [insertCoal, List.mem_singleton] at he
        subst he
        exact Or.inl rfl
  | cons hd t ih =>
      intro hp
      obtain ⟨k', v'⟩ := hd
      rw [keySorted, List.pairwise_cons] at hp
      obtain ⟨h1, h2⟩ := hp
      simp only [insertCoal]
      split_ifs with hlt heq
      · constructor
        · rw [keySorted, List.pairwise_cons]
          refine ⟨?_, List.pairwise_cons.mpr ⟨h1, h2⟩⟩
          intro e he
          rcases List.mem_cons.mp he with rfl | het
          · exact hlt
          · exact lt_trans hlt (h1 e het)
        · intro e he
          rcases List.mem_cons.mp he with rfl | het
          · exact Or.inl rfl
          · exact Or.inr (List.mem_map_of_mem Prod.fst het)
      · subst heq
        constructor
        · exact List.pairwise_cons.mpr ⟨h1, h2⟩
        · intro e he
          rcases List.mem_cons.mp he with rfl | het
          · exact Or.inl rfl
          · exact Or.inr (List.mem_map_of_mem Prod.fst (List.mem_cons_of_mem _ het))
      · obtain ⟨ih1, ih2⟩ := ih h2
        have hk'k : k' < k := by omega
        constructor
        · rw [keySorted, List.pairwise_cons]
          refine ⟨?_, ih1⟩
          intro e he
          rcases ih2 e he with hek | hemem
          · rw [hek]; exact hk'k
          · obtain ⟨e', he't, he'e⟩ := List.mem_map.mp hemem
            rw [← he'e]
            exact h1 e' he't
        · intro e he
          rcases List.mem_cons.mp he with rfl | het
          · exact Or.inr (List.mem_map_of_mem Prod.fst (List.mem_cons_self _ _))
          · rcases ih2 e het with hek | hemem
            · exact Or.inl hek
            · obtain ⟨e', he't, he'e⟩ := List.mem_map.mp hemem
              exact Or.inr (List.mem_map.mpr ⟨e', List.mem_cons_of_mem _ he't, he'e⟩)

theorem coalesce_sorted {α : Type} [Add α] (l : List (ℤ × α)) :
    keySorted (coalesce l) := by
  unfold coalesce
  have haux : ∀ (l' acc : List (ℤ × α)), keySorted acc →
      keySorted (l'.foldl (fun acc e => insertCoal e.1 e.2 acc) acc) := by
    intro l'
    induction l' with
    | nil => intro acc h; exact h
    | cons e t ih =>
        intro acc h
        exact ih _ (insertCoal_sorted e.1 e.2 acc h).1
  exact haux l [] List.Pairwise.nil

/-- C3 (amended): the sparse path's own `coalesce()` yields a gradient with
pairwise distinct keys, preserving each key's total value. -/
theorem sparse_grad_coalesce_spec {α : Type} [AddCommMonoid α] (l : List (ℤ × α)) :
    (sparseGradCoalesce l).Pairwise (fun e e' => e.1 ≠ e'.1) ∧
    ∀ k : ℤ, totalAt k (sparseGradCoalesce l) = totalAt k l := by
  constructor
  · exact (coalesce_sorted l).imp (fun h => ne_of_lt h)
  · intro k
    exact totalAt_coalesce k l

/-- Witness for C3 (amended) on a concrete two-key rational gradient. -/
theorem sparse_grad_coalesce_spec_witness :
    (sparseGradCoalesce [((0 : ℤ), (2 : ℚ)), (1, 3)]).Pairwise
      (fun e e' => e.1 ≠ e'.1) ∧
    ∀ k : ℤ, totalAt k (sparseGradCoalesce [((0 : ℤ), (2 : ℚ)), (1, 3)]) =
      totalAt k [((0 : ℤ), (2 : ℚ)), (1, 3)] :=
  sparse_grad_coalesce_spec [((0 : ℤ), (2 : ℚ)), (1, 3)]

/-- C3 counterexample: the sparse step de-duplicates a gradient with repeated
keys itself (summing the duplicate values) rather than leaving it to the
caller. -/
theorem sparse_grad_coalesce_counterexample :
    sparseGradCoalesce [((0 : ℤ), (2 : ℚ)), (0, 3)] = [(0, 5)] ∧
    sparseGradCoalesce [((0 : ℤ), (2 : ℚ)), (0, 3)] ≠ [((0 : ℤ), (2 : ℚ)), (0, 3)] := by
  have h : sparseGradCoalesce [((0 : ℤ), (2 : ℚ)), (0, 3)] = [(0, 5)] := by
    unfold sparseGradCoalesce coalesce
    simp [insertCoal]
    norm_num
  refine ⟨h, ?_⟩
  rw [h]
  simp

theorem totalAt_eq_zero {α : Type} [AddCommMonoid α] (k : ℤ) :
    ∀ l : List (ℤ × α), (∀ e ∈ l, e.1 ≠ k) → totalAt k l = 0 := by
  intro l
  induction l with
  | nil => intro _; rfl
  | cons hd t ih =>
      intro hl
      simp only [totalAt]
      rw [if_neg (hl hd (List.mem_cons_self hd t)), ih
        (fun e he => hl e (List.mem_cons_of_mem hd he)), add_zero]

/-- In a list with pairwise-distinct keys, the total accumulated at the key
of a member of a per-entry map is that entry's mapped value. -/
theorem totalAt_map_of_unique (l : List (ℤ × ℝ)) (f : ℤ × ℝ → ℝ)
    (hl : l.Pairwise (fun e e' => e.1 ≠ e'.1)) (e : ℤ × ℝ) (he : e ∈ l) :
    totalAt e.1 (l.map (fun x => (x.1, f x))) = f e := by
  induction l with
  | nil => cases he
  | cons hd t ih =>
      rw [List.pairwise_cons] at hl
      obtain ⟨h1, h2⟩ := hl
      rcases List.mem_cons.mp he with rfl | het
      · have hz : ∀ x ∈ t.map (fun x => (x.1, f x)), x.1 ≠ e.1 := by
          intro x hx
          obtain ⟨x', hx't, hx'x⟩ := List.mem_map.mp hx
          rw [← hx'x]
          exact fun hc => (h1 x' hx't) hc.symm
        simp only [List.map_cons, totalAt]
        rw [totalAt_eq_zero e.1 (t.map (fun x => (x.1, f x))) hz]
        simp
      · simp only [List.map_cons, totalAt]
        rw [if_neg (h1 e het), ih h2 het, zero_add]

/-! ## The sparse Adam step (`Adam.sparse`, `adam_error.py:94-180`)

The sketches consumed by the sparse path (`exp_sketch.CountSketch` and
`exp_cms.CountMinSketch`) are imported from modules not among the sources,
so their returned estimates are taken as inputs `numer` (first moment) and
`sqEst` (second moment), one value per coalesced key.  Everything done with
those estimates — denominator, parameter update, exact shadows, error
accounting — is embedded from the source lines. -/

/-- `tensor.add_(make_sparse(values))`: pointwise add of a sparse batch. -/
def addSparse (f : ℤ → ℝ) (l : List (ℤ × ℝ)) : ℤ → ℝ :=
  fun j => f j + totalAt j l

/-- The sparse denominator (`adam_error.py:150`):
`exp_avg_sq_update.sqrt_().add_(eps)`. -/
noncomputable def sparseDenom (eps sqEst : ℝ) : ℝ := Real.sqrt sqEst + eps

/-- The gradient as the sparse step uses it (`adam_error.py:110-113`): weight
decay if configured, then `grad.coalesce()`. -/
noncomputable def sparseGrad (h : AdamHyper) (p : ℤ → ℝ)
    (grad0 : List (ℤ × ℝ)) : List (ℤ × ℝ) :=
  sparseGradCoalesce
    (if h.wd = 0 then grad0 else grad0.map (fun e => (e.1, e.2 + h.wd * p e.1)))

/-- Diagnostic counters owned by the optimizer (`adam_error.py:44-46`):
running error sums for both moments and the entry count (initially `1`). -/
structure SparseDiag where
  e1 : ℝ
  e2 : ℝ
  cnt : ℕ

/-- Per-parameter sparse state: step counter and the two exact shadows. -/
structure SparseSt where
  step : ℕ
  sh1 : ℤ → ℝ
  sh2 : ℤ → ℝ

/-- Result of one sparse step: new state, new diagnostics, new parameter and
the optionally emitted pair of mean errors. -/
structure SparseResult where
  st : SparseSt
  diag : SparseDiag
  par : ℤ → ℝ
  emitted : Option (ℝ × ℝ)

/-- One `Adam.sparse` step (`adam_error.py:94-180`), with the sketch
estimates `numer` and `sqEst` supplied per key.  Mirrors the source order:
coalesce, sketch denominator and update, exact shadow EMAs, the
every-125-entries emit-and-reset check followed by error accumulation, then
the bias-corrected parameter update. -/
noncomputable def sparseStep (h : AdamHyper) (numer sqEst : ℤ → ℝ) (p : ℤ → ℝ)
    (grad0 : List (ℤ × ℝ)) (s : SparseSt) (dg : SparseDiag) : SparseResult :=
  let stp := s.step + 1
  let grad := sparseGrad h p grad0
  let denom := fun k => sparseDenom h.eps (sqEst k)
  let upd := fun k => numer k / denom k
  let sh1' := addSparse s.sh1
    (grad.map (fun e => (e.1, (e.2 - s.sh1 e.1) * (1 - h.beta1))))
  let e1term := (grad.map (fun e =>
    |numer e.1 - ((e.2 - s.sh1 e.1) * (1 - h.beta1) + s.sh1 e.1)|)).sum
  let sh2' := addSparse s.sh2
    (grad.map (fun e => (e.1, (e.2 ^ 2 - s.sh2 e.1) * (1 - h.beta2))))
  let e2term := (grad.map (fun e => |denom e.1 - sh2' e.1|)).sum
  let emitted := if dg.cnt % 125 = 0
    then some (dg.e1 / (dg.cnt : ℝ), dg.e2 / (dg.cnt : ℝ)) else none
  let e1r := if dg.cnt % 125 = 0 then (0 : ℝ) else dg.e1
  let e2r := if dg.cnt % 125 = 0 then (0 : ℝ) else dg.e2
  let cntr := if dg.cnt % 125 = 0 then 1 else dg.cnt
  let ss := h.lr * Real.sqrt (1 - h.beta2 ^ stp) / (1 - h.beta1 ^ stp)
  let par := addSparse p (grad.map (fun e => (e.1, -ss * upd e.1)))
  ⟨⟨stp, sh1', sh2'⟩, ⟨e1r + e1term, e2r + e2term, cntr + 1⟩, par, emitted⟩

/-- C6 (amended): per sparse step the diagnostic adds, for the first moment,
the summed `|sketch − shadow|`; for the second moment it adds the summed
`|(√(sketch estimate) + eps) − raw shadow second moment|` (the update
denominator against the un-rooted shadow, not two estimates of one
quantity); when the entry counter is `≡ 0 (mod 125)` at entry it first emits
`sum/counter` for both moments and resets before accumulating; and the
applied parameter update is independent of the diagnostic state. -/
theorem sparse_diag_semantics (h : AdamHyper) (numer sqEst p : ℤ → ℝ)
    (grad0 : List (ℤ × ℝ)) (s : SparseSt) (dg : SparseDiag) :
    (sparseStep h numer sqEst p grad0 s dg).emitted =
      (if dg.cnt % 125 = 0
        then some (dg.e1 / (dg.cnt : ℝ), dg.e2 / (dg.cnt : ℝ)) else none) ∧
    (sparseStep h numer sqEst p grad0 s dg).diag.cnt =
      (if dg.cnt % 125 = 0 then 1 else dg.cnt) + 1 ∧
    (sparseStep h numer sqEst p grad0 s dg).diag.e1 =
      (if dg.cnt % 125 = 0 then 0 else dg.e1) +
        ((sparseGrad h p grad0).map (fun e =>
          |numer e.1 - ((e.2 - s.sh1 e.1) * (1 - h.beta1) + s.sh1 e.1)|)).sum ∧
    (sparseStep h numer sqEst p grad0 s dg).diag.e2 =
      (if dg.cnt % 125 = 0 then 0 else dg.e2) +
        ((sparseGrad h p grad0).map (fun e =>
          |sparseDenom h.eps (sqEst e.1) -
            (s.sh2 e.1 + (e.2 ^ 2 - s.sh2 e.1) * (1 - h.beta2))|)).sum ∧
    (∀ dg' : SparseDiag, (sparseStep h numer sqEst p grad0 s dg').par =
      (sparseStep h numer sqEst p grad0 s dg).par) ∧
    (sparseStep h numer sqEst p grad0 s dg).par =
      addSparse p ((sparseGrad h p grad0).map (fun e =>
        (e.1, -(h.lr * Real.sqrt (1 - h.beta2 ^ (s.step + 1)) /
            (1 - h.beta1 ^ (s.step + 1))) *
          (numer e.1 / sparseDenom h.eps (sqEst e.1))))) := by
  refine ⟨rfl, rfl, rfl, ?_, fun _ => rfl, rfl⟩
  simp only [sparseStep]
  congr 1
  refine congrArg List.sum (List.map_congr_left ?_)
  intro e he
  have hu : (sparseGrad h p grad0).Pairwise (fun e e' => e.1 ≠ e'.1) := by
    unfold sparseGrad
    exact (sparse_grad_coalesce_spec _).1
  have ht := totalAt_map_of_unique (sparseGrad h p grad0)
    (fun x => (x.2 ^ 2 - s.sh2 x.1) * (1 - h.beta2)) hu e he
  simp only [addSparse]
  rw [ht]

/-- C6 counterexample: with `beta2 = 0`, `eps = 0`, gradient value `4` on a
fresh shadow and a collision-free sketch estimate `16` (the exact second
moment), the step accumulates `12` into the second-moment error — yet the
absolute difference between the sketch estimate and the shadow estimate of
that quantity is `0`: the code compares `√(estimate)+eps` against the
un-rooted shadow. -/
theorem sparse_diag_wrong_quantity :
    (sparseStep ⟨1, 0, 0, 0, 0, false⟩ (fun _ => 4) (fun _ => 16) (fun _ => 0)
        [((0 : ℤ), (4 : ℝ))] ⟨0, fun _ => 0, fun _ => 0⟩ ⟨0, 0, 1⟩).diag.e2 = 12 ∧
    (sparseStep ⟨1, 0, 0, 0, 0, false⟩ (fun _ => 4) (fun _ => 16) (fun _ => 0)
        [((0 : ℤ), (4 : ℝ))] ⟨0, fun _ => 0, fun _ => 0⟩ ⟨0, 0, 1⟩).st.sh2 0 = 16 ∧
    (12 : ℝ) ≠ |(16 : ℝ) - 16| := by
  have h16 : Real.sqrt (16 : ℝ) = 4 := by
    rw [show (16 : ℝ) = 4 ^ 2 by norm_num, Real.sqrt_sq (by norm_num : (0 : ℝ) ≤ 4)]
  refine ⟨?_, ?_, by norm_num⟩
  · simp [sparseStep, sparseGrad, sparseGradCoalesce, coalesce, insertCoal,
      addSparse, totalAt, sparseDenom, h16]
    norm_num
  · simp [sparseStep, sparseGrad, sparseGradCoalesce, coalesce, insertCoal,
      addSparse, totalAt]
    norm_num

/-- C9 counterexample: `eps = 0` passes construction-time validation, and
then a zero gradient on a fresh state makes the dense denominator `0`
— the division in the step is a division by zero. -/
theorem eps_zero_denominator :
    validHyper ⟨1 / 1000, 9 / 10, 999 / 1000, 0, 0, false⟩ ∧
    denseDenom false (0 : ℝ)
      ((denseStep ⟨1 / 1000, 9 / 10, 999 / 1000, 0, 0, false⟩ (fun _ => 0) (fun _ => 0)
          ⟨0, fun _ => 0, fun _ => 0, fun _ => 0⟩).1.expAvgSq)
      ((denseStep ⟨1 / 1000, 9 / 10, 999 / 1000, 0, 0, false⟩ (fun _ => 0) (fun _ => 0)
          ⟨0, fun _ => 0, fun _ => 0, fun _ => 0⟩).1.maxExpAvgSq) 0 = 0 := by
  constructor
  · exact ⟨by norm_num, le_refl 0, ⟨by norm_num, by norm_num⟩, ⟨by norm_num, by norm_num⟩⟩
  · simp [denseStep, denseDenom, wdGrad, Real.sqrt_zero]

/-- C9 (amended): every division is guarded by an additive term — `eps` in
the dense and sparse Adam denominators, a hardcoded `1e-10` in the
compressor kernels — so with `eps > 0` (validation also admits `eps = 0`,
where the dense/sparse denominators can vanish) all denominators are
strictly positive, as is the bias-correction divisor. -/
theorem denominators_positive (h : AdamHyper) (hv : validHyper h) (heps : 0 < h.eps)
    (p grad : ℤ → ℝ) (s : DenseSt) (i : ℤ) (beta old value : ℝ)
    (hb0 : 0 ≤ beta) (hb1 : beta ≤ 1) (hold : 0 ≤ old) (hval : 0 ≤ value) :
    0 < denseDenom h.amsgrad h.eps ((denseStep h p grad s).1.expAvgSq)
        ((denseStep h p grad s).1.maxExpAvgSq) i ∧
    (∀ est : ℝ, 0 < sparseDenom h.eps est) ∧
    0 < Real.sqrt (vApprox beta old value + 1 / 10 ^ 10) ∧
    0 < 1 - h.beta1 ^ (s.step + 1) := by
  obtain ⟨hlr, hesp0, ⟨hb10, hb11⟩, ⟨hb20, hb21⟩⟩ := hv
  refine ⟨?_, ?_, ?_, ?_⟩
  · unfold denseDenom
    split_ifs with ha
    · dsimp only
      have := Real.sqrt_nonneg ((denseStep h p grad s).1.maxExpAvgSq i)
      linarith
    · dsimp only
      have := Real.sqrt_nonneg ((denseStep h p grad s).1.expAvgSq i)
      linarith
  · intro est
    unfold sparseDenom
    have := Real.sqrt_nonneg est
    linarith
  · apply Real.sqrt_pos.mpr
    unfold vApprox
    have h1 : 0 ≤ beta * old := mul_nonneg hb0 hold
    have h2 : 0 ≤ (1 - beta) * value := mul_nonneg (by linarith) hval
    have h3 : (0 : ℝ) < 1 / 10 ^ 10 := by norm_num
    linarith
  · have hp : h.beta1 ^ (s.step + 1) < 1 :=
      pow_lt_one₀ hb10 hb11 (Nat.succ_ne_zero s.step)
    linarith

/-- Witness for C9 (amended) at `eps = 1e-8` and concrete data. -/
theorem denominators_positive_witness :
    (validHyper ⟨1 / 1000, 9 / 10, 999 / 1000, 1 / 100000000, 0, false⟩ ∧
     (0 : ℝ) < 1 / 100000000 ∧ (0 : ℝ) ≤ 1 / 2 ∧ (1 / 2 : ℝ) ≤ 1 ∧
     (0 : ℝ) ≤ 0 ∧ (0 : ℝ) ≤ 0) ∧
    (0 < denseDenom (AdamHyper.mk (1 / 1000) (9 / 10) (999 / 1000) (1 / 100000000) 0
          false).amsgrad
        (AdamHyper.mk (1 / 1000) (9 / 10) (999 / 1000) (1 / 100000000) 0 false).eps
        ((denseStep ⟨1 / 1000, 9 / 10, 999 / 1000, 1 / 100000000, 0, false⟩
            (fun _ => 0) (fun _ => 1) ⟨0, fun _ => 0, fun _ => 0, fun _ => 0⟩).1.expAvgSq)
        ((denseStep ⟨1 / 1000, 9 / 10, 999 / 1000, 1 / 100000000, 0, false⟩
            (fun _ => 0) (fun _ => 1)
            ⟨0, fun _ => 0, fun _ => 0, fun _ => 0⟩).1.maxExpAvgSq) 0 ∧
     (∀ est : ℝ,
        0 < sparseDenom (AdamHyper.mk (1 / 1000) (9 / 10) (999 / 1000) (1 / 100000000) 0
            false).eps est) ∧
     0 < Real.sqrt (vApprox (1 / 2) 0 0 + 1 / 10 ^ 10) ∧
     0 < 1 - (AdamHyper.mk (1 / 1000) (9 / 10) (999 / 1000) (1 / 100000000) 0
          false).beta1 ^ (DenseSt.mk 0 (fun _ => 0) (fun _ => 0) (fun _ => 0)).step.succ) := by
  have hv : validHyper ⟨1 / 1000, 9 / 10, 999 / 1000, 1 / 100000000, 0, false⟩ :=
    ⟨by norm_num, by norm_num, ⟨by norm_num, by norm_num⟩, ⟨by norm_num, by norm_num⟩⟩
  exact ⟨⟨hv, by norm_num, by norm_num, by norm_num, le_refl 0, le_refl 0⟩,
    denominators_positive ⟨1 / 1000, 9 / 10, 999 / 1000, 1 / 100000000, 0, false⟩ hv
      (by norm_num) (fun _ => 0) (fun _ => 1) ⟨0, fun _ => 0, fun _ => 0, fun _ => 0⟩ 0
      (1 / 2) 0 0 (by norm_num) (by norm_num) (le_refl 0) (le_refl 0)⟩

end CSO
